import Mathlib

/-!
# Verification of rprompt's schema-inference core

Shallow embedding of the Go sources of `notzree/rprompt`:

* `utils/map.go`      — `MergeAsSet` / `tryMergeNestedMaps` (set-like deep merge)
* `prompt/template.go`— `Template.walk`, `ExtractVarsFromPipe`,
  `buildNestedStructure`, `LoadDependencies`, `addDependenciesRecursive`,
  `findTemplateDependencies`, `Template.Parse`
* `prompt/system.go`  — `PromptSystem.GenerateOrFillConfig` (merge step)

Go's `map[string]any` values produced and consumed by this code are either
strings (the `""` leaf marker, or scalar config values) or nested
`map[string]any`.  We model such a value as `Val` and a map as an association
list `SMap` (Go maps are unordered with unique keys; the association list is a
deterministic representative, and all per-key statements are phrased through
`lookupV`).  Go's `nil` map is modelled as `none : Option SMap`.

Go's unbounded recursion (the walker can recurse through the template set,
which may be cyclic) is made explicit with a fuel parameter; a genuine
`panic` of the Go code (the unchecked type assertion in the `RangeNode`
case) is modelled as the `WalkStop.panic` error.
-/

namespace Rprompt

/-- A Go `any` value as used by the schema walker and the config merger:
either a non-map scalar (the schema code only ever stores strings, with `""`
as the leaf marker) or a nested `map[string]any`. -/
inductive Val where
  | str : String → Val
  | vmap : List (String × Val) → Val
  deriving Repr

/-- A Go `map[string]any`, as an association list with (by construction of
all operations below) unique keys. -/
abbrev SMap := List (String × Val)

/-- The `""` leaf marker the walker stores at required scalar positions. -/
def leafMark : Val := Val.str ""

mutual

/-- Boolean equality on `Val` (structural). -/
def Val.beq : Val → Val → Bool
  | Val.str a, Val.str b => a == b
  | Val.vmap m1, Val.vmap m2 => beqEntries m1 m2
  | _, _ => false

/-- Boolean equality on entry lists. -/
def beqEntries : List (String × Val) → List (String × Val) → Bool
  | [], [] => true
  | (k1, v1) :: r1, (k2, v2) :: r2 => k1 == k2 && Val.beq v1 v2 && beqEntries r1 r2
  | _, _ => false

end

mutual

theorem Val.beq_refl : ∀ (v : Val), Val.beq v v = true
  | Val.str a => by simp [Val.beq]
  | Val.vmap m => by simp [Val.beq, beqEntries_refl m]

theorem beqEntries_refl : ∀ (m : List (String × Val)), beqEntries m m = true
  | [] => rfl
  | (k, v) :: r => by simp [beqEntries, Val.beq_refl v, beqEntries_refl r]

end

mutual

theorem Val.eq_of_beq : ∀ (a b : Val), Val.beq a b = true → a = b
  | Val.str _, Val.str _, h => by
      simp only [Val.beq, beq_iff_eq] at h
      rw [h]
  | Val.str _, Val.vmap _, h => by simp [Val.beq] at h
  | Val.vmap _, Val.str _, h => by simp [Val.beq] at h
  | Val.vmap m1, Val.vmap m2, h => by
      simp only [Val.beq] at h
      rw [eqEntries_of_beqEntries m1 m2 h]

theorem eqEntries_of_beqEntries :
    ∀ (m1 m2 : List (String × Val)), beqEntries m1 m2 = true → m1 = m2
  | [], [], _ => rfl
  | (k1, v1) :: r1, (k2, v2) :: r2, h => by
      simp only [beqEntries, Bool.and_eq_true, beq_iff_eq] at h
      obtain ⟨⟨hk, hv⟩, hr⟩ := h
      rw [hk, Val.eq_of_beq v1 v2 hv, eqEntries_of_beqEntries r1 r2 hr]
  | [], _ :: _, h => by simp [beqEntries] at h
  | _ :: _, [], h => by simp [beqEntries] at h

end

instance : DecidableEq Val := fun a b =>
  if h : Val.beq a b = true then isTrue (Val.eq_of_beq a b h)
  else isFalse (fun he => h (he ▸ Val.beq_refl a))

/-- Go map read `m[k]` (comma-ok form): first entry with key `k`. -/
def lookupV : SMap → String → Option Val
  | [], _ => none
  | (k', v) :: rest, k => if k' = k then some v else lookupV rest k

/-- Go map write `m[k] = v`: replace the entry if the key is present,
otherwise add it. -/
def setKey : SMap → String → Val → SMap
  | [], k, v => [(k, v)]
  | (k', v') :: rest, k, v =>
      if k' = k then (k, v) :: rest else (k', v') :: setKey rest k v

/-- The keys of a map. -/
def keysOf (m : SMap) : List String := m.map Prod.fst

/-- The entry loop of `utils/map.go` `MergeAsSet` (and, identically, of
`tryMergeNestedMaps` applied to two maps): start from a copy of the first
map and process every entry of the second map in order; an entry whose key
is absent is added, an entry whose key is present is recursively merged when
both the existing and the incoming values are maps (`tryMergeNestedMaps`,
inlined here as the map/map check) and silently dropped otherwise. -/
def mergeMaps : SMap → SMap → SMap
  | m1, [] => m1
  | m1, (k, v) :: rest =>
      match lookupV m1 k, v with
      | none, _ => mergeMaps (m1 ++ [(k, v)]) rest
      | some (Val.vmap em), Val.vmap vm =>
          mergeMaps (setKey m1 k (Val.vmap (mergeMaps em vm))) rest
      | some _, _ => mergeMaps m1 rest

/-- `utils/map.go` `tryMergeNestedMaps`: if both values are maps, merge them
recursively (returning `true`); otherwise keep the first value
(returning `false`). -/
def tryMergeNestedMaps : Val → Val → Val × Bool
  | Val.vmap m1, Val.vmap m2 => (Val.vmap (mergeMaps m1 m2), true)
  | v1, _ => (v1, false)

/-- `utils/map.go` `MergeAsSet` including its `nil` guard: a Go `nil` map is
`none`, and merging fails exactly when either argument is `nil`. -/
def MergeAsSet : Option SMap → Option SMap → Except String SMap
  | some a, some b => Except.ok (mergeMaps a b)
  | _, _ => Except.error "cannot merge nil maps"

/-- `utils/map.go` `UniqueString`: drop duplicates, keeping the first
occurrence of each string. -/
def uniqueAux (seen : List String) : List String → List String
  | [] => []
  | x :: xs => if seen.contains x then uniqueAux seen xs else x :: uniqueAux (x :: seen) xs

/-- `utils/map.go` `UniqueString`. -/
def UniqueString (items : List String) : List String := uniqueAux [] items

/-- One argument of a pipe command (`text/template/parse` argument nodes, as
inspected by `ExtractVarsFromPipe` and the `RangeNode` case of `walk`):
a `FieldNode` (`.a.b`, `Ident` list), a `VariableNode` (`$x.y`), the
`DotNode` (`.`), or any other argument kind (ignored by the extractor). -/
inductive Arg where
  | field : List String → Arg
  | variable : List String → Arg
  | dot : Arg
  | other : Arg
  deriving Repr

/-- A `parse.CommandNode`: its argument list. -/
structure Command where
  args : List Arg
  deriving Repr

/-- A `parse.PipeNode`: its command list. -/
structure Pipe where
  cmds : List Command
  deriving Repr

/-- The subset of `text/template/parse` node kinds that `Template.walk` and
`findTemplateDependencies` dispatch on.  `list`, `ifn`, `range`, `withn`
carry the fields the Go code reads (`Pipe`, `List`, `ElseList`, each of which
may be Go-`nil`, hence `Option`); `templ` is a `TemplateNode` (name and
optional argument pipe); `text` stands for every node kind the `switch`
ignores (e.g. `TextNode`). -/
inductive Node where
  | list : List Node → Node
  | action : Option Pipe → Node
  | ifn : Option Pipe → Option Node → Option Node → Node
  | range : Option Pipe → Option Node → Option Node → Node
  | withn : Option Pipe → Option Node → Option Node → Node
  | templ : String → Option Pipe → Node
  | text : Node
  deriving Repr

/-- The `start` adjustment in `ExtractVarsFromPipe` and the `RangeNode` case:
skip the first identifier when it is literally `"."`. -/
def dropDot : List String → List String
  | "." :: rest => rest
  | l => l

/-- `prompt/template.go` `buildNestedStructure`: walk `path` into `data`,
setting the leaf marker at the last key (overwriting whatever is there) and
replacing non-map intermediate values by fresh maps. -/
def buildNestedStructure (data : SMap) : List String → SMap
  | [] => data
  | [k] => setKey data k leafMark
  | k :: rest =>
      let nested :=
        match lookupV data k with
        | some (Val.vmap m) => m
        | _ => []
      setKey data k (Val.vmap (buildNestedStructure nested rest))

/-- The per-argument step of `ExtractVarsFromPipe`: `FieldNode` idents (after
the leading-dot skip) and `VariableNode` idents feed `buildNestedStructure`;
`DotNode` and every other argument kind contribute nothing. -/
def extractArg (data : SMap) : Arg → SMap
  | Arg.field ident =>
      if ident.isEmpty then data else buildNestedStructure data (dropDot ident)
  | Arg.variable ident =>
      if ident.isEmpty then data else buildNestedStructure data ident
  | Arg.dot => data
  | Arg.other => data

/-- `prompt/template.go` `ExtractVarsFromPipe`: fold every argument of every
command, in order, into one fragment. -/
def ExtractVarsFromPipe (pipe : Pipe) : SMap :=
  pipe.cmds.foldl (fun d c => c.args.foldl extractArg d) []

/-- `ExtractVarsFromPipe` on a possibly-`nil` pipe (the walker guards every
pipe with `!= nil`; a missing pipe contributes nothing). -/
def extractOptPipe : Option Pipe → SMap
  | some p => ExtractVarsFromPipe p
  | none => []

/-- The range-path scan in the `RangeNode` case of `walk`: for each command,
take its first `FieldNode` with a non-empty `Ident` (the `break` leaves only
the inner argument loop), so the surviving value is the first field of the
*last* command that has one. -/
def firstFieldOfCmd (c : Command) : Option (List String) :=
  c.args.foldl
    (fun acc a =>
      match acc, a with
      | some l, _ => some l
      | none, Arg.field ident => if ident.isEmpty then none else some (dropDot ident)
      | none, _ => none)
    none

/-- The `rangePath` computed by the `RangeNode` case of `walk`. -/
def rangePathOf (p : Pipe) : List String :=
  p.cmds.foldl
    (fun acc c =>
      match firstFieldOfCmd c with
      | some l => l
      | none => acc)
    []

/-- The range-path marker loop of the `RangeNode` case: descend along
`rangePath`, creating missing intermediate maps, and put the `""` marker at
the last key unless it is already present.  The unchecked type assertion
`current[rangePath[i]].(map[string]any)` panics when an intermediate value is
present but not a map: that is the `none` result. -/
def ensurePath (data : SMap) : List String → Option SMap
  | [] => some data
  | [k] =>
      some (match lookupV data k with
        | some _ => data
        | none => setKey data k leafMark)
  | k :: rest =>
      match lookupV data k with
      | some (Val.vmap m) =>
          (ensurePath m rest).map (fun m' => setKey data k (Val.vmap m'))
      | some _ => none
      | none =>
          (ensurePath [] rest).map (fun m' => setKey data k (Val.vmap m'))

/-- The inner-variable overwrite loop of the `WithNode` case:
`for k, v := range innerVars { withMap[k] = v }`. -/
def overwriteAll (base inner : SMap) : SMap :=
  inner.foldl (fun b kv => setKey b kv.1 kv.2) base

mutual

/-- `prompt/template.go` `findTemplateDependencies`: collect the names of all
`TemplateNode`s (not descending into pipes), deduplicating at every level. -/
def findTemplateDependencies : Node → List String
  | Node.list ns => UniqueString (depsOfList ns)
  | Node.templ name _ => UniqueString [name]
  | Node.ifn _ l e => UniqueString (depsOfOpt l ++ depsOfOpt e)
  | Node.range _ l e => UniqueString (depsOfOpt l ++ depsOfOpt e)
  | Node.withn _ l e => UniqueString (depsOfOpt l ++ depsOfOpt e)
  | _ => UniqueString []

/-- Children loop of `findTemplateDependencies` on a `ListNode`. -/
def depsOfList : List Node → List String
  | [] => []
  | n :: rest => findTemplateDependencies n ++ depsOfList rest

/-- `findTemplateDependencies` through a possibly-`nil` child. -/
def depsOfOpt : Option Node → List String
  | some n => findTemplateDependencies n
  | none => []

end

/-- How an embedded walk can stop early: `panic` models the Go runtime panic
of the unchecked type assertion in the `RangeNode` case; `fuelOut` is the
artifact of making the walker's unbounded recursion through the template set
explicit (Go simply recurses, and diverges on cyclic template sets). -/
inductive WalkStop where
  | panic
  | fuelOut
  deriving Repr, DecidableEq

/-- The associated-template set of a root template (`t.Tmpl.Lookup`\'s search
space): names mapped to parse trees. -/
abbrev TSet := List (String × Node)

/-- `t.Tmpl.Lookup(name)` over the modelled template set. -/
def lookupTree : TSet → String → Option Node
  | [], _ => none
  | (k, t) :: rest, name => if k = name then some t else lookupTree rest name

/-- The per-key loop of the `WithNode` case of `walk`: for every key of
`withVars`, replace `data[key]` by a map (reusing it when it already is one)
holding every inner variable. -/
def attachInner (data : SMap) (withKeys : List String) (inner : SMap) : SMap :=
  withKeys.foldl
    (fun d k =>
      let base :=
        match lookupV d k with
        | some (Val.vmap m) => m
        | _ => []
      setKey d k (Val.vmap (overwriteAll base inner)))
    data

mutual

/-- `prompt/template.go` `Template.walk`, with explicit recursion fuel
(decremented once per call).  Each `case` of the Go `switch` is reproduced:
merges happen through `mergeMaps` (the Go code calls `utils.MergeAsSet` on
maps that are never `nil`, so the error branch never runs and the result is
always adopted). -/
def walk (tset : TSet) : Nat → Node → Except WalkStop SMap
  | 0, _ => Except.error WalkStop.fuelOut
  | fuel + 1, node =>
    match node with
    | Node.list ns => walkList tset fuel ns []
    | Node.action p? => Except.ok (mergeMaps [] (extractOptPipe p?))
    | Node.ifn p? l? e? => do
        let d0 := mergeMaps [] (extractOptPipe p?)
        let d1 ←
          match l? with
          | some l => do
              let w ← walk tset fuel l
              pure (mergeMaps d0 w)
          | none => pure d0
        match e? with
        | some e => do
            let w ← walk tset fuel e
            pure (mergeMaps d1 w)
        | none => pure d1
    | Node.range p? l? e? => do
        let d1 ←
          match p? with
          | none => pure ([] : SMap)
          | some p =>
              let d0 := mergeMaps [] (ExtractVarsFromPipe p)
              match l? with
              | none => pure d0
              | some _ =>
                  let rp := rangePathOf p
                  if rp.isEmpty then pure d0
                  else
                    match ensurePath d0 rp with
                    | some d => pure d
                    | none => Except.error WalkStop.panic
        match e? with
        | some e => do
            let w ← walk tset fuel e
            pure (mergeMaps d1 w)
        | none => pure d1
    | Node.withn p? l? e? => do
        let d1 ←
          match p? with
          | none => pure ([] : SMap)
          | some p =>
              let withVars := ExtractVarsFromPipe p
              let d0 := mergeMaps [] withVars
              match l? with
              | none => pure d0
              | some l => do
                  let innerVars ← walk tset fuel l
                  pure (attachInner d0 (keysOf withVars) innerVars)
        match e? with
        | some e => do
            let w ← walk tset fuel e
            pure (mergeMaps d1 w)
        | none => pure d1
    | Node.templ name p? =>
        (match lookupTree tset name with
        | none => Except.ok (mergeMaps [] (extractOptPipe p?))
        | some ntree => do
            let deps := findTemplateDependencies ntree
            let templateData ← walk tset fuel ntree
            let d1 ← walkDeps tset fuel deps []
            let d2 := mergeMaps d1 templateData
            pure (mergeMaps d2 (extractOptPipe p?)))
    | Node.text => Except.ok []
termination_by fuel _ => (fuel, 0)

/-- The `ListNode` loop of `walk`: merge the walk of every child in order. -/
def walkList (tset : TSet) (fuel : Nat) : List Node → SMap → Except WalkStop SMap
  | [], acc => Except.ok acc
  | n :: rest, acc => do
      let w ← walk tset fuel n
      walkList tset fuel rest (mergeMaps acc w)
termination_by ns _ => (fuel, ns.length + 1)

/-- The dependency loop of the `TemplateNode` case of `walk`. -/
def walkDeps (tset : TSet) (fuel : Nat) : List String → SMap → Except WalkStop SMap
  | [], acc => Except.ok acc
  | dep :: rest, acc =>
      match lookupTree tset dep with
      | some dtree => do
          let dd ← walk tset fuel dtree
          walkDeps tset fuel rest (mergeMaps acc dd)
      | none => walkDeps tset fuel rest acc
termination_by deps _ => (fuel, deps.length + 1)

end

/-! ## Dependency loading (`LoadDependencies` / `addDependenciesRecursive`)

The registry (`LocalPromptRegistry.Find`) is modelled as a finite map from
template path to parse tree (`Find` reads the file and the dependency loader
immediately parses it; parsing is abstracted to tree retrieval).  The state
threaded through the recursion carries the Go `processed` set, the parse
trees added to the root template's set via `AddParseTree`, and — as
instrumentation — the list of names passed to `Registry.Find`, in call
order. -/

/-- A registry: template path → parse tree. -/
abbrev Registry := List (String × Node)

/-- How dependency loading can fail: a dependency absent from the registry
(`DependencyNotFoundError`), or exhaustion of the explicit recursion fuel
(an embedding artifact; `LoadDependencies` below always supplies enough). -/
inductive LoadErr where
  | notFound : String → LoadErr
  | fuelOut : LoadErr
  deriving Repr, DecidableEq

/-- State of one resolution pass. -/
structure LoadState where
  /-- The Go `processed` map: names already handled. -/
  processed : List String
  /-- Parse trees added to the root template's set (`AddParseTree`),
  keyed by the *original* include name. -/
  tset : TSet
  /-- Names passed to `Registry.Find`, in call order (instrumentation). -/
  queries : List String
  deriving Repr

/-- Go `strings.HasSuffix`, over the string's character list. -/
def hasSuffix (s suffix : String) : Bool :=
  suffix.data == s.data.drop (s.data.length - suffix.data.length)

/-- The `.tmpl`-suffix normalization applied to each dependency name before
the registry lookup. -/
def ensureSuffix (s : String) : String :=
  if hasSuffix s ".tmpl" then s else s ++ ".tmpl"

/-- Registry lookup (`Registry.Find`). -/
def lookupReg : Registry → String → Option Node
  | [], _ => none
  | (k, t) :: rest, name => if k = name then some t else lookupReg rest name

/-- `AddParseTree(depName, tree)` over the modelled template set. -/
def addTree (ts : TSet) (name : String) (tree : Node) : TSet :=
  match ts with
  | [] => [(name, tree)]
  | (k, t) :: rest => if k = name then (name, tree) :: rest else (k, t) :: addTree rest name tree

mutual

/-- `prompt/template.go` `addDependenciesRecursive`: mark the current
template processed, then load each of its tree's dependencies. -/
def addDepsRec (reg : Registry) : Nat → LoadState → String → Node → Except LoadErr LoadState
  | 0, _, _, _ => Except.error LoadErr.fuelOut
  | fuel + 1, st, path, tree =>
      goDeps reg fuel { st with processed := path :: st.processed }
        (findTemplateDependencies tree)
termination_by fuel _ _ _ => (fuel, 0)

/-- The dependency loop of `addDependenciesRecursive`: suffix-normalize the
name, skip it when already processed, otherwise fetch it from the registry
(fatal `notFound` when absent), register its tree under the original name,
and recurse into its own dependencies. -/
def goDeps (reg : Registry) (fuel : Nat) : LoadState → List String → Except LoadErr LoadState
  | st, [] => Except.ok st
  | st, dep :: rest =>
      let depPath := ensureSuffix dep
      if st.processed.contains depPath then goDeps reg fuel st rest
      else
        match lookupReg reg depPath with
        | none => Except.error (LoadErr.notFound depPath)
        | some depTree => do
            let st' := { st with
              tset := addTree st.tset dep depTree
              queries := st.queries ++ [depPath] }
            let st'' ← addDepsRec reg fuel st' depPath depTree
            goDeps reg fuel st'' rest
termination_by _ deps => (fuel, deps.length + 1)

end

/-- The number of distinct registry names not yet processed: the decreasing
measure of the loader's recursion, used to pick a sufficient fuel. -/
def unproc (reg : Registry) (processed : List String) : Nat :=
  ((UniqueString (reg.map Prod.fst)).filter (fun n => !processed.contains n)).length

/-- `prompt/template.go` `Template.LoadDependencies`: start a pass with an
empty `processed` set from the root template's path and tree.  The fuel is
one more than the number of distinct registry names, which (proved below)
the recursion can never exhaust. -/
def LoadDependencies (reg : Registry) (path : String) (tree : Node) : Except LoadErr LoadState :=
  addDepsRec reg (unproc reg [] + 1) ⟨[], [], []⟩ path tree

/-! ## Validation and config synthesis -/

/-- The missing-field loop of `prompt/template.go` `Template.Parse`: collect
every top-level key of the required config that is absent from the supplied
config (only top-level key presence is inspected, never the value). -/
def missingFieldsOf (required cfg : SMap) : List String :=
  (keysOf required).filter (fun k => (lookupV cfg k).isNone)

/-- `Template.Parse` after the schema has been generated: `some fields` is
the `MissingFieldsError` carrying `fields`; `none` is success. -/
def ParseCheck (required cfg : SMap) : Option (List String) :=
  let missing := missingFieldsOf required cfg
  if missing.isEmpty then none else some missing

/-- `prompt/template.go` `Template.Parse` composed with the walk that
produces the required schema (`GenerateConfig`): walk failure propagates,
otherwise the shallow key check runs. -/
def TemplateParse (tset : TSet) (fuel : Nat) (root : Node) (cfg : SMap) :
    Except WalkStop (Option (List String)) := do
  let required ← walk tset fuel root
  pure (ParseCheck required cfg)

/-- The merge step of `prompt/system.go` `PromptSystem.GenerateOrFillConfig`:
`utils.MergeAsSet(loadedCfg.Config, genCfg.Config)` — the data of the final
config written back by the command. -/
def GenerateOrFillConfigData (loaded generated : Option SMap) : Except String SMap :=
  MergeAsSet loaded generated

/-! ## Spec-side comparison definition (for C7) -/

/-- Modelled from the spec: §4.2 describes extraction of a single reference
of path length `n` (after the context-root drop) as "if n = 0, skip; if
n = 1, set that key to a leaf marker; if n > 1, build a chain of n−1 nested
mappings and place a leaf marker at the innermost key".  This definition
follows those words, to be compared with `ExtractVarsFromPipe`. -/
def specNestedChain : List String → SMap
  | [] => []
  | [k] => [(k, leafMark)]
  | k :: rest => [(k, Val.vmap (specNestedChain rest))]

/-! ## Range safety (for C3)

`walk` can only panic in the `RangeNode` marker loop; `rangeSafe` decides,
per range pipe, whether that loop's unchecked type assertion succeeds, and
`allRangesSafe` checks it for every range node the walker can reach inside
one tree (a range node's body is only used as a presence guard and is never
walked, so its own nodes are irrelevant). -/

/-- The `RangeNode` marker loop cannot hit the unchecked type assertion. -/
def rangeSafe (p : Pipe) : Bool :=
  rangePathOf p = [] ||
    (ensurePath (mergeMaps [] (ExtractVarsFromPipe p)) (rangePathOf p)).isSome

mutual

/-- Every range node reachable by `walk` inside this tree is safe. -/
def allRangesSafe : Node → Bool
  | Node.list ns => allRangesSafeList ns
  | Node.action _ => true
  | Node.ifn _ l e => allRangesSafeOpt l && allRangesSafeOpt e
  | Node.range p? _ e =>
      (match p? with
       | some p => rangeSafe p
       | none => true) && allRangesSafeOpt e
  | Node.withn _ l e => allRangesSafeOpt l && allRangesSafeOpt e
  | Node.templ _ _ => true
  | Node.text => true

/-- `allRangesSafe` over a `ListNode`'s children. -/
def allRangesSafeList : List Node → Bool
  | [] => true
  | n :: rest => allRangesSafe n && allRangesSafeList rest

/-- `allRangesSafe` through a possibly-`nil` child. -/
def allRangesSafeOpt : Option Node → Bool
  | some n => allRangesSafe n
  | none => true

end

/-- Every tree of the template set is range-safe. -/
def tsetRangesSafe (tset : TSet) : Bool :=
  tset.all (fun nt => allRangesSafe nt.2)

/-! ## Lemmas about lookup, setKey and mergeMaps -/

theorem lookupV_eq_none_iff (m : SMap) (k : String) :
    lookupV m k = none ↔ k ∉ keysOf m := by
  induction m with
  | nil => simp [lookupV, keysOf]
  | cons hd tl ih =>
      obtain ⟨k', v⟩ := hd
      by_cases h : k' = k
      · subst h
        simp [lookupV, keysOf]
      · simp [lookupV, keysOf, h, ih, Ne.symm h]

theorem lookupV_append_some (m l : SMap) (k : String) (w : Val)
    (h : lookupV m k = some w) : lookupV (m ++ l) k = some w := by
  induction m with
  | nil => simp [lookupV] at h
  | cons hd tl ih =>
      obtain ⟨k', v⟩ := hd
      by_cases hk : k' = k
      · subst hk
        simp [lookupV] at h ⊢
        exact h
      · simp [lookupV, hk] at h ⊢
        exact ih h

theorem lookupV_append_none (m l : SMap) (k : String)
    (h : lookupV m k = none) : lookupV (m ++ l) k = lookupV l k := by
  induction m with
  | nil => simp [lookupV]
  | cons hd tl ih =>
      obtain ⟨k', v⟩ := hd
      by_cases hk : k' = k
      · subst hk
        simp [lookupV] at h
      · simp [lookupV, hk] at h ⊢
        exact ih h

theorem lookupV_setKey_self (m : SMap) (k : String) (v : Val) :
    lookupV (setKey m k v) k = some v := by
  induction m with
  | nil => simp [setKey, lookupV]
  | cons hd tl ih =>
      obtain ⟨k', v'⟩ := hd
      by_cases hk : k' = k
      · simp [setKey, lookupV, hk]
      · simp [setKey, lookupV, hk, ih]

theorem lookupV_setKey_ne (m : SMap) (k k' : String) (v : Val) (h : k ≠ k') :
    lookupV (setKey m k v) k' = lookupV m k' := by
  induction m with
  | nil => simp [setKey, lookupV, h]
  | cons hd tl ih =>
      obtain ⟨k'', v'⟩ := hd
      by_cases hk : k'' = k
      · subst hk
        simp [setKey, lookupV, h]
      · simp [setKey, lookupV, hk, ih]

/-- Appending a fresh entry for key `j` leaves lookups at other keys alone. -/
theorem lookupV_append_single_ne (m : SMap) (j k : String) (v : Val) (h : j ≠ k) :
    lookupV (m ++ [(j, v)]) k = lookupV m k := by
  cases hk : lookupV m k with
  | none => simp [lookupV_append_none m _ k hk, lookupV, h]
  | some w => simp [lookupV_append_some m _ k w hk]

/-- Keys not mentioned by the second map are untouched by `mergeMaps`. -/
theorem lookupV_mergeMaps_not_mem (m1 m2 : SMap) (k : String)
    (h : k ∉ keysOf m2) : lookupV (mergeMaps m1 m2) k = lookupV m1 k := by
  induction m2 generalizing m1 with
  | nil => rw [mergeMaps.eq_1]
  | cons hd rest ih =>
      obtain ⟨j, v⟩ := hd
      simp only [keysOf, List.map_cons, List.mem_cons] at h
      push_neg at h
      obtain ⟨hjk, hrest⟩ := h
      have hjk' : j ≠ k := fun he => hjk he.symm
      cases hm : lookupV m1 j with
      | none =>
          rw [mergeMaps.eq_2 m1 j rest v hm, ih _ hrest,
            lookupV_append_single_ne m1 j k v hjk']
      | some ex =>
          cases ex with
          | str s =>
              rw [mergeMaps.eq_4 m1 j rest v (Val.str s) hm
                (fun em vm hev _ => by cases hev), ih _ hrest]
          | vmap em =>
              cases v with
              | str s =>
                  rw [mergeMaps.eq_4 m1 j rest (Val.str s) (Val.vmap em) hm
                    (fun em' vm' _ hv => by cases hv), ih _ hrest]
              | vmap vm =>
                  rw [mergeMaps.eq_3 m1 j rest em vm hm, ih _ hrest,
                    lookupV_setKey_ne m1 j k _ hjk']

/-- What `mergeMaps` stores at one key, as a function of what the two inputs
store there: both-maps entries merge recursively, other conflicts keep the
first value, one-sided entries are taken as-is. -/
def mergeLookupSpec : Option Val → Option Val → Option Val
  | some (Val.vmap em), some (Val.vmap vm) => some (Val.vmap (mergeMaps em vm))
  | some v, _ => some v
  | none, ov => ov

/-- Per-key characterization of `mergeMaps` (second map with unique keys,
as every Go map has). -/
theorem lookupV_mergeMaps (m1 m2 : SMap) (h : (keysOf m2).Nodup) (k : String) :
    lookupV (mergeMaps m1 m2) k = mergeLookupSpec (lookupV m1 k) (lookupV m2 k) := by
  induction m2 generalizing m1 with
  | nil =>
      rw [mergeMaps.eq_1]
      simp only [lookupV, mergeLookupSpec]
      cases lookupV m1 k with
      | none => rfl
      | some v => cases v <;> rfl
  | cons hd rest ih =>
      obtain ⟨j, v⟩ := hd
      simp only [keysOf, List.map_cons, List.nodup_cons] at h
      obtain ⟨hj, hrest⟩ := h
      by_cases hk : j = k
      · subst hk
        have hnr : j ∉ keysOf rest := hj
        have hhead : lookupV ((j, v) :: rest) j = some v := by simp [lookupV]
        rw [hhead]
        cases hm : lookupV m1 j with
        | none =>
            rw [mergeMaps.eq_2 m1 j rest v hm,
              lookupV_mergeMaps_not_mem _ rest j hnr,
              lookupV_append_none m1 _ j hm]
            simp [lookupV, mergeLookupSpec]
        | some ex =>
            cases ex with
            | str s =>
                rw [mergeMaps.eq_4 m1 j rest v (Val.str s) hm
                  (fun em vm hev _ => by cases hev),
                  lookupV_mergeMaps_not_mem _ rest j hnr, hm]
                cases v <;> rfl
            | vmap em =>
                cases v with
                | str s =>
                    rw [mergeMaps.eq_4 m1 j rest (Val.str s) (Val.vmap em) hm
                      (fun em' vm' _ hv => by cases hv),
                      lookupV_mergeMaps_not_mem _ rest j hnr, hm]
                    rfl
                | vmap vm =>
                    rw [mergeMaps.eq_3 m1 j rest em vm hm,
                      lookupV_mergeMaps_not_mem _ rest j hnr,
                      lookupV_setKey_self]
                    rfl
      · have hk' : j ≠ k := hk
        have hstep : lookupV (mergeMaps m1 ((j, v) :: rest)) k =
            mergeLookupSpec (lookupV m1 k) (lookupV rest k) := by
          cases hm : lookupV m1 j with
          | none =>
              rw [mergeMaps.eq_2 m1 j rest v hm, ih _ hrest,
                lookupV_append_single_ne m1 j k v hk']
          | some ex =>
              cases ex with
              | str s =>
                  rw [mergeMaps.eq_4 m1 j rest v (Val.str s) hm
                    (fun em vm hev _ => by cases hev), ih _ hrest]
              | vmap em =>
                  cases v with
                  | str s =>
                      rw [mergeMaps.eq_4 m1 j rest (Val.str s) (Val.vmap em) hm
                        (fun em' vm' _ hv => by cases hv), ih _ hrest]
                  | vmap vm =>
                      rw [mergeMaps.eq_3 m1 j rest em vm hm, ih _ hrest,
                        lookupV_setKey_ne m1 j k _ hk']
        rw [hstep]
        simp [lookupV, hk]

/-! ## Lemmas about extraction -/

/-- `buildNestedStructure` from an empty map realises exactly the chain of
nested singleton maps described in §4.2 of the spec. -/
theorem buildNestedStructure_nil (path : List String) :
    buildNestedStructure [] path = specNestedChain path := by
  induction path with
  | nil => rfl
  | cons k rest ih =>
      cases rest with
      | nil => rfl
      | cons k2 rest2 =>
          simp only [buildNestedStructure, specNestedChain, lookupV, setKey]
          rw [ih]

/-! ## Concrete templates used in the examples -/

/-- A pipe holding one field reference (`.a.b...`, `Ident` as given). -/
def fieldPipe (path : List String) : Pipe := ⟨[⟨[Arg.field path]⟩]⟩

/-- A pipe holding one bare context reference (`.`). -/
def dotPipe : Pipe := ⟨[⟨[Arg.dot]⟩]⟩

/-! ## Claim theorems -/

/-- C7: for every pipe holding a single field reference, extraction yields
nothing for a path of length 0 after the context-root drop, a leaf marker at
the key for length 1, and a chain of n−1 nested mappings ending in a leaf
marker for length n > 1 (`specNestedChain` spells out exactly that shape);
a bare context reference contributes nothing; in particular `a.b.c` yields
`{a: {b: {c: leaf}}}`. -/
theorem extract_pipe_path_depth :
    (∀ path : List String,
        ExtractVarsFromPipe (fieldPipe path) = specNestedChain (dropDot path)) ∧
    ExtractVarsFromPipe dotPipe = [] ∧
    ExtractVarsFromPipe (fieldPipe ["a", "b", "c"]) =
      [("a", Val.vmap [("b", Val.vmap [("c", leafMark)])])] := by
  refine ⟨fun path => ?_, rfl, ?_⟩
  · cases path with
    | nil => rfl
    | cons k rest => exact buildNestedStructure_nil (dropDot (k :: rest))
  · exact buildNestedStructure_nil ["a", "b", "c"]

/-- C9: `MergeAsSet` fails exactly when one of its arguments is the Go `nil`
map: two non-`nil` maps (empty ones included) always merge to `Except.ok`,
and any call with a `nil` argument yields the error and no result. -/
theorem mergeAsSet_error_iff_nil (oa ob : Option SMap) :
    (∀ a b, oa = some a → ob = some b →
        MergeAsSet oa ob = Except.ok (mergeMaps a b)) ∧
    (MergeAsSet oa ob = Except.error "cannot merge nil maps" ↔
        oa = none ∨ ob = none) := by
  constructor
  · intro a b ha hb
    subst ha
    subst hb
    rfl
  · cases oa with
    | none =>
        cases ob <;> simp [MergeAsSet]
    | some a =>
        cases ob with
        | none => simp [MergeAsSet]
        | some b => simp [MergeAsSet]

/-- Witness for C9 at concrete inputs: two empty (non-`nil`) maps merge
successfully, and a `nil` first argument errors. -/
theorem mergeAsSet_error_iff_nil_witness :
    MergeAsSet (some []) (some []) = Except.ok (mergeMaps [] []) ∧
    MergeAsSet none (some []) = Except.error "cannot merge nil maps" :=
  ⟨(mergeAsSet_error_iff_nil (some []) (some [])).1 [] [] rfl rfl,
   (mergeAsSet_error_iff_nil none (some [])).2.mpr (Or.inl rfl)⟩

/-- C4: per-key behaviour of the set merge, for maps with unique keys (as Go
maps are): a key in both inputs whose two values are nested maps gets their
recursive merge; any other key in both keeps the first map's value (the
incoming one is dropped); one-sided keys are inserted as-is.  The two
first-shape-wins examples of the spec are included verbatim. -/
theorem mergeAsSet_first_shape_wins (A B : SMap) (hB : (keysOf B).Nodup) :
    (∀ k em vm, lookupV A k = some (Val.vmap em) → lookupV B k = some (Val.vmap vm) →
        lookupV (mergeMaps A B) k = some (Val.vmap (mergeMaps em vm))) ∧
    (∀ k vA vB, lookupV A k = some vA → lookupV B k = some vB →
        ((vA matches Val.vmap _) = false ∨ (vB matches Val.vmap _) = false) →
        lookupV (mergeMaps A B) k = some vA) ∧
    (∀ k vA, lookupV A k = some vA → lookupV B k = none →
        lookupV (mergeMaps A B) k = some vA) ∧
    (∀ k vB, lookupV A k = none → lookupV B k = some vB →
        lookupV (mergeMaps A B) k = some vB) ∧
    mergeMaps [("x", leafMark)] [("x", Val.vmap [("y", leafMark)])] = [("x", leafMark)] ∧
    mergeMaps [("x", Val.vmap [("y", leafMark)])] [("x", leafMark)] =
      [("x", Val.vmap [("y", leafMark)])] := by
  refine ⟨?_, ?_, ?_, ?_, ?_, ?_⟩
  · intro k em vm hA hB'
    rw [lookupV_mergeMaps A B hB k, hA, hB']
    rfl
  · intro k vA vB hA hB' hshape
    rw [lookupV_mergeMaps A B hB k, hA, hB']
    cases vA with
    | str s => rfl
    | vmap em =>
        cases vB with
        | str s => rfl
        | vmap vm => simp at hshape
  · intro k vA hA hB'
    rw [lookupV_mergeMaps A B hB k, hA, hB']
    cases vA <;> rfl
  · intro k vB hA hB'
    rw [lookupV_mergeMaps A B hB k, hA, hB']
    rfl
  · simp [mergeMaps, lookupV, leafMark]
  · simp [mergeMaps, lookupV, leafMark]

/-- Witness for C4 at concrete inputs: with `A = {x: leaf, z: leaf}` and
`B = {x: {y: leaf}, w: leaf}` the conflicting key `x` keeps `A`'s leaf and
the one-sided keys survive. -/
theorem mergeAsSet_first_shape_wins_witness :
    lookupV (mergeMaps [("x", leafMark), ("z", leafMark)]
      [("x", Val.vmap [("y", leafMark)]), ("w", leafMark)]) "x" = some leafMark ∧
    lookupV (mergeMaps [("x", leafMark), ("z", leafMark)]
      [("x", Val.vmap [("y", leafMark)]), ("w", leafMark)]) "w" = some leafMark := by
  have h := mergeAsSet_first_shape_wins [("x", leafMark), ("z", leafMark)]
    [("x", Val.vmap [("y", leafMark)]), ("w", leafMark)] (by decide)
  exact ⟨h.2.1 "x" leafMark (Val.vmap [("y", leafMark)]) rfl rfl (Or.inl rfl),
    h.2.2.2.1 "w" leafMark rfl rfl⟩

/-- The entries of `missingFieldsOf`, characterized. -/
theorem mem_missingFieldsOf (required cfg : SMap) (k : String) :
    k ∈ missingFieldsOf required cfg ↔ k ∈ keysOf required ∧ k ∉ keysOf cfg := by
  simp only [missingFieldsOf, List.mem_filter, Option.isNone_iff_eq_none]
  exact and_congr_right (fun _ => lookupV_eq_none_iff cfg k)

/-- C5: validation reports a `MissingFieldsError` if and only if some
top-level key of the generated schema is absent from the supplied
configuration; the reported list holds exactly the absent top-level keys, so
a key present with any value (whatever its shape) is never reported, and
nested mismatches are never reported. -/
theorem parse_missing_top_level (tset : TSet) (fuel : Nat) (root : Node)
    (cfg required : SMap) (hw : walk tset fuel root = Except.ok required) :
    TemplateParse tset fuel root cfg = Except.ok (ParseCheck required cfg) ∧
    (ParseCheck required cfg = none ↔ ∀ k ∈ keysOf required, k ∈ keysOf cfg) ∧
    (∀ ms, ParseCheck required cfg = some ms →
        ms ≠ [] ∧ ∀ k, (k ∈ ms ↔ k ∈ keysOf required ∧ k ∉ keysOf cfg)) := by
  refine ⟨?_, ?_, ?_⟩
  · simp [TemplateParse, hw, bind, Except.bind, pure, Except.pure]
  · by_cases he : (missingFieldsOf required cfg).isEmpty = true
    · have hnil : missingFieldsOf required cfg = [] := by
        simpa [List.isEmpty_iff] using he
      refine ⟨fun _ k hk => ?_, fun _ => by simp [ParseCheck, hnil]⟩
      by_contra hc
      have : k ∈ missingFieldsOf required cfg := (mem_missingFieldsOf required cfg k).mpr ⟨hk, hc⟩
      rw [hnil] at this
      exact absurd this (List.not_mem_nil k)
    · have hne : missingFieldsOf required cfg ≠ [] := by
        intro h0
        rw [h0] at he
        exact he rfl
      obtain ⟨k0, hk0⟩ := List.exists_mem_of_ne_nil _ hne
      obtain ⟨hk0r, hk0c⟩ := (mem_missingFieldsOf required cfg k0).mp hk0
      constructor
      · intro hcontra
        simp [ParseCheck, he] at hcontra
      · intro hall
        exact absurd (hall k0 hk0r) hk0c
  · intro ms hms
    by_cases he : (missingFieldsOf required cfg).isEmpty = true
    · simp [ParseCheck, he] at hms
    · simp only [ParseCheck, if_neg he, Option.some.injEq] at hms
      subst hms
      refine ⟨?_, fun k => mem_missingFieldsOf required cfg k⟩
      intro h0
      rw [h0] at he
      exact he rfl

/-- Witness for C5: for the template `[[.user]]` the generated schema is
`{user: leaf}`; against the empty configuration validation reports exactly
`["user"]`, and against `{user: 5}` (present but with scalar shape) it
reports nothing. -/
theorem parse_missing_top_level_witness :
    TemplateParse [] 1 (Node.action (some (fieldPipe ["user"]))) [] =
      Except.ok (some ["user"]) ∧
    TemplateParse [] 1 (Node.action (some (fieldPipe ["user"])))
      [("user", Val.str "5")] = Except.ok none := by
  have hw : walk [] 1 (Node.action (some (fieldPipe ["user"]))) =
      Except.ok [("user", leafMark)] := by
    simp [walk, fieldPipe, extractOptPipe, ExtractVarsFromPipe, extractArg,
      buildNestedStructure, mergeMaps, lookupV, setKey, leafMark]
  constructor
  · rw [(parse_missing_top_level [] 1 _ [] [("user", leafMark)] hw).1]
    simp [ParseCheck, missingFieldsOf, keysOf, lookupV, leafMark]
  · rw [(parse_missing_top_level [] 1 _ [("user", Val.str "5")]
      [("user", leafMark)] hw).1]
    simp [ParseCheck, missingFieldsOf, keysOf, lookupV, leafMark]

/-- C2 counterexample: filling the existing configuration `{a: {x: "1"}}`
from the required schema `{a: {y: leaf}}` does *not* leave the existing
top-level value of `a` untouched — the required sub-key `y` is recursively
merged into the nested object, because `MergeAsSet` recurses whenever both
values are maps. -/
theorem generateOrFillConfig_counterexample :
    GenerateOrFillConfigData (some [("a", Val.vmap [("x", Val.str "1")])])
      (some [("a", Val.vmap [("y", leafMark)])]) =
      Except.ok [("a", Val.vmap [("x", Val.str "1"), ("y", leafMark)])] ∧
    Val.vmap [("x", Val.str "1"), ("y", leafMark)] ≠ Val.vmap [("x", Val.str "1")] := by
  constructor
  · simp [GenerateOrFillConfigData, MergeAsSet, mergeMaps, lookupV, setKey, leafMark]
  · decide

/-- C2 (amended): when filling an existing configuration from a required
schema, a top-level key of the existing configuration keeps its value
untouched when that value is not a nested mapping or when the schema does
not require that key; but when both the existing and the required values are
nested mappings, the required sub-keys are recursively set-merged into the
existing nested object (existing sub-entries still win on conflict); keys
required but absent are added with the generated placeholder value. -/
theorem generateOrFillConfig_top_level (loaded gen : SMap) (hg : (keysOf gen).Nodup) :
    GenerateOrFillConfigData (some loaded) (some gen) = Except.ok (mergeMaps loaded gen) ∧
    (∀ k v, lookupV loaded k = some v → (v matches Val.vmap _) = false →
        lookupV (mergeMaps loaded gen) k = some v) ∧
    (∀ k v, lookupV loaded k = some v → lookupV gen k = none →
        lookupV (mergeMaps loaded gen) k = some v) ∧
    (∀ k em vm, lookupV loaded k = some (Val.vmap em) →
        lookupV gen k = some (Val.vmap vm) →
        lookupV (mergeMaps loaded gen) k = some (Val.vmap (mergeMaps em vm))) ∧
    (∀ k v, lookupV loaded k = none → lookupV gen k = some v →
        lookupV (mergeMaps loaded gen) k = some v) := by
  refine ⟨rfl, ?_, ?_, ?_, ?_⟩
  · intro k v hl hshape
    rw [lookupV_mergeMaps loaded gen hg k, hl]
    cases v with
    | str s => cases lookupV gen k with
        | none => rfl
        | some w => rfl
    | vmap em => simp at hshape
  · intro k v hl hgk
    rw [lookupV_mergeMaps loaded gen hg k, hl, hgk]
    cases v <;> rfl
  · intro k em vm hl hgk
    rw [lookupV_mergeMaps loaded gen hg k, hl, hgk]
    rfl
  · intro k v hl hgk
    rw [lookupV_mergeMaps loaded gen hg k, hl, hgk]
    rfl

/-- Witness for C2 (amended) at concrete inputs: existing
`{a: {x: "1"}, b: "2"}`, required `{a: {y: leaf}, c: leaf}`: `b` is
untouched, `a` receives the recursive merge, `c` is added. -/
theorem generateOrFillConfig_top_level_witness :
    lookupV (mergeMaps [("a", Val.vmap [("x", Val.str "1")]), ("b", Val.str "2")]
      [("a", Val.vmap [("y", leafMark)]), ("c", leafMark)]) "b" = some (Val.str "2") ∧
    lookupV (mergeMaps [("a", Val.vmap [("x", Val.str "1")]), ("b", Val.str "2")]
      [("a", Val.vmap [("y", leafMark)]), ("c", leafMark)]) "a" =
      some (Val.vmap (mergeMaps [("x", Val.str "1")] [("y", leafMark)])) ∧
    lookupV (mergeMaps [("a", Val.vmap [("x", Val.str "1")]), ("b", Val.str "2")]
      [("a", Val.vmap [("y", leafMark)]), ("c", leafMark)]) "c" = some leafMark := by
  have h := generateOrFillConfig_top_level
    [("a", Val.vmap [("x", Val.str "1")]), ("b", Val.str "2")]
    [("a", Val.vmap [("y", leafMark)]), ("c", leafMark)] (by decide)
  exact ⟨h.2.1 "b" (Val.str "2") rfl rfl,
    h.2.2.2.1 "a" [("x", Val.str "1")] [("y", leafMark)] rfl rfl,
    h.2.2.2.2 "c" leafMark rfl rfl⟩

/-- `[[range .items]]..[[.name]]..[[end]]`: a Loop over `.items` whose body
references `.name`. -/
def exRangeNode : Node :=
  Node.range (some (fieldPipe ["items"]))
    (some (Node.action (some (fieldPipe ["name"])))) none

/-- The same Loop with an else-branch referencing `.fallback`. -/
def exRangeNodeElse : Node :=
  Node.range (some (fieldPipe ["items"]))
    (some (Node.action (some (fieldPipe ["name"]))))
    (some (Node.action (some (fieldPipe ["fallback"]))))

/-- C1 counterexample: for the Loop over `.items` whose body references
`.name`, the walk yields `{items: leaf}` while the claim's merge of the
pipe's fragment with the walk of the body yields
`{items: leaf, name: leaf}` — the two differ, because the `RangeNode` case
never walks the loop body. -/
theorem rangeNode_counterexample :
    walk [] 5 exRangeNode = Except.ok [("items", leafMark)] ∧
    walk [] 4 (Node.action (some (fieldPipe ["name"]))) = Except.ok [("name", leafMark)] ∧
    mergeMaps (mergeMaps [] (ExtractVarsFromPipe (fieldPipe ["items"])))
      [("name", leafMark)] = [("items", leafMark), ("name", leafMark)] ∧
    ([("items", leafMark)] : SMap) ≠ [("items", leafMark), ("name", leafMark)] := by
  refine ⟨?_, ?_, ?_, by decide⟩
  · simp [exRangeNode, walk, fieldPipe, ExtractVarsFromPipe, extractOptPipe, extractArg,
      mergeMaps, lookupV, rangePathOf, firstFieldOfCmd, dropDot, ensurePath, setKey,
      leafMark, buildNestedStructure, pure, Except.pure, bind, Except.bind]
  · simp [walk, fieldPipe, ExtractVarsFromPipe, extractOptPipe, extractArg,
      mergeMaps, lookupV, setKey, leafMark, buildNestedStructure]
  · simp [fieldPipe, ExtractVarsFromPipe, extractArg, mergeMaps, lookupV, setKey,
      leafMark, buildNestedStructure]

/-- C1 (amended): the walk of a Loop node merges the source pipe's fragment
(with a leaf marker ensured at the range path when a body is present) and
the walk of the else-branch only; the body itself is never walked, so fields
referenced only inside the loop body do not appear in the schema.  First
conjunct: the walk result does not depend on the loop body at all; second
and third conjuncts: on the `.items`/`.name` loop the schema is exactly
`{items: leaf}`, and with an else-branch referencing `.fallback` it is
`{items: leaf, fallback: leaf}` (still without `name`). -/
theorem rangeNode_body_not_walked :
    (∀ (tset : TSet) (fuel : Nat) (p? : Option Pipe) (b1 b2 : Node) (e? : Option Node),
        walk tset fuel (Node.range p? (some b1) e?) =
          walk tset fuel (Node.range p? (some b2) e?)) ∧
    walk [] 5 exRangeNode = Except.ok [("items", leafMark)] ∧
    walk [] 5 exRangeNodeElse = Except.ok [("items", leafMark), ("fallback", leafMark)] := by
  refine ⟨fun tset fuel p? b1 b2 e? => ?_, ?_, ?_⟩
  · cases fuel with
    | zero => rw [walk.eq_1, walk.eq_1]
    | succ f =>
        cases p? with
        | none => rw [walk.eq_6, walk.eq_6]
        | some p => rw [walk.eq_8, walk.eq_8]
  · simp [exRangeNode, walk, fieldPipe, ExtractVarsFromPipe, extractOptPipe, extractArg,
      mergeMaps, lookupV, rangePathOf, firstFieldOfCmd, dropDot, ensurePath, setKey,
      leafMark, buildNestedStructure, pure, Except.pure, bind, Except.bind]
  · simp [exRangeNodeElse, walk, fieldPipe, ExtractVarsFromPipe, extractOptPipe, extractArg,
      mergeMaps, lookupV, rangePathOf, firstFieldOfCmd, dropDot, ensurePath, setKey,
      leafMark, buildNestedStructure, pure, Except.pure, bind, Except.bind]

/-- `setKey` on an absent key appends the entry. -/
theorem setKey_eq_append (m : SMap) (k : String) (v : Val)
    (h : lookupV m k = none) : setKey m k v = m ++ [(k, v)] := by
  induction m with
  | nil => rfl
  | cons hd tl ih =>
      obtain ⟨k', v'⟩ := hd
      by_cases hk : k' = k
      · subst hk
        simp [lookupV] at h
      · simp only [lookupV, if_neg hk] at h
        simp [setKey, hk, ih h]

/-- The inner-variable overwrite loop, applied to entries whose keys are
fresh for the accumulator, appends them all. -/
theorem overwriteAll_eq_append (inner : SMap) : ∀ (acc : SMap),
    (keysOf inner).Nodup → (∀ k ∈ keysOf inner, lookupV acc k = none) →
    overwriteAll acc inner = acc ++ inner := by
  induction inner with
  | nil => intro acc _ _; simp [overwriteAll]
  | cons hd rest ih =>
      intro acc hnd hdisj
      obtain ⟨k, v⟩ := hd
      simp only [keysOf, List.map_cons, List.nodup_cons] at hnd
      obtain ⟨hk, hrest⟩ := hnd
      have hacc : lookupV acc k = none := hdisj k (by simp [keysOf])
      have hstep : overwriteAll acc ((k, v) :: rest) = overwriteAll (acc ++ [(k, v)]) rest := by
        simp [overwriteAll, setKey_eq_append acc k v hacc]
      have hdisj' : ∀ k' ∈ keysOf rest, lookupV (acc ++ [(k, v)]) k' = none := by
        intro k' hk'
        have hne : k ≠ k' := fun he => hk (he ▸ hk')
        rw [lookupV_append_single_ne acc k k' v hne]
        exact hdisj k'
          (by simp only [keysOf, List.map_cons, List.mem_cons]; exact Or.inr hk')
      rw [hstep, ih (acc ++ [(k, v)]) hrest hdisj']
      simp

/-- `overwriteAll` into an empty map reproduces the inner fragment. -/
theorem overwriteAll_nil (inner : SMap) (h : (keysOf inner).Nodup) :
    overwriteAll [] inner = inner := by
  simpa using overwriteAll_eq_append inner [] h (fun k _ => rfl)

/-- C6: for a Rebind (`with`) node whose pipe names a single top-level key,
the walk attaches the body's fragment as the nested value under that key,
instead of merging the body's fields at the outer level. -/
theorem withNode_reparents (tset : TSet) (fuel : Nat) (p : Pipe) (k : String)
    (body : Node) (inner : SMap)
    (hp : ExtractVarsFromPipe p = [(k, leafMark)])
    (hb : walk tset fuel body = Except.ok inner)
    (hnd : (keysOf inner).Nodup) :
    walk tset (fuel + 1) (Node.withn (some p) (some body) none) =
      Except.ok [(k, Val.vmap inner)] := by
  have h0 : mergeMaps [] [(k, leafMark)] = [(k, leafMark)] := by
    rw [mergeMaps.eq_2 [] k [] leafMark rfl, mergeMaps.eq_1]
    rfl
  rw [walk.eq_11, hp, h0]
  simp only [hb, bind, Except.bind, pure, Except.pure]
  have hattach : attachInner [(k, leafMark)] (keysOf [(k, leafMark)]) inner =
      [(k, Val.vmap inner)] := by
    simp [attachInner, keysOf, lookupV, setKey, leafMark, overwriteAll_nil inner hnd]
  rw [hattach]

/-- Witness for C6: a rebind on `contact` whose body references `email` and
`phone` yields `{contact: {email: leaf, phone: leaf}}`. -/
theorem withNode_reparents_witness :
    walk [] 5 (Node.withn (some (fieldPipe ["contact"]))
      (some (Node.list [Node.action (some (fieldPipe ["email"])),
        Node.action (some (fieldPipe ["phone"]))])) none) =
      Except.ok [("contact", Val.vmap [("email", leafMark), ("phone", leafMark)])] := by
  apply withNode_reparents [] 4 (fieldPipe ["contact"]) "contact"
  · rfl
  · simp [walk, walkList, fieldPipe, ExtractVarsFromPipe, extractOptPipe, extractArg,
      mergeMaps, lookupV, setKey, leafMark, buildNestedStructure,
      pure, Except.pure, bind, Except.bind]
  · decide

/-! ## Walk totality (C3) -/

/-- A tree found in a range-safe template set is itself range-safe. -/
theorem lookupTree_safe (tset : TSet) (name : String) (t : Node)
    (hts : tsetRangesSafe tset = true) (h : lookupTree tset name = some t) :
    allRangesSafe t = true := by
  induction tset with
  | nil => simp [lookupTree] at h
  | cons hd rest ih =>
      obtain ⟨n', t'⟩ := hd
      simp only [tsetRangesSafe, List.all_cons, Bool.and_eq_true] at hts
      by_cases hn : n' = name
      · simp only [lookupTree, if_pos hn, Option.some.injEq] at h
        exact h ▸ hts.1
      · simp only [lookupTree, if_neg hn] at h
        exact ih (by simpa [tsetRangesSafe] using hts.2) h

/-- Binding a non-panicking walk into a pure continuation cannot panic. -/
theorem bind_pure_ne_panic (X : Except WalkStop SMap) (f : SMap → SMap)
    (hX : X ≠ Except.error WalkStop.panic) :
    (do
      let w ← X
      pure (f w)) ≠ (Except.error WalkStop.panic : Except WalkStop SMap) := by
  cases X with
  | error e => simpa [bind, Except.bind] using hX
  | ok w => simp [bind, Except.bind, pure, Except.pure]

/-- The child loop of a `ListNode` cannot panic when no reachable range node
is unsafe. -/
theorem walkList_no_panic (tset : TSet) (fuel : Nat)
    (hstep : ∀ node, allRangesSafe node = true →
        walk tset fuel node ≠ Except.error WalkStop.panic) :
    ∀ (ns : List Node) (acc : SMap), allRangesSafeList ns = true →
      walkList tset fuel ns acc ≠ Except.error WalkStop.panic := by
  intro ns
  induction ns with
  | nil => intro acc _ h; rw [walkList.eq_1] at h; cases h
  | cons n rest ih =>
      intro acc hsafe h
      simp only [allRangesSafeList, Bool.and_eq_true] at hsafe
      rw [walkList.eq_2] at h
      cases hwn : walk tset fuel n with
      | error e =>
          rw [hwn] at h
          simp only [bind, Except.bind] at h
          cases h
          exact hstep n hsafe.1 hwn
      | ok w =>
          rw [hwn] at h
          simp only [bind, Except.bind] at h
          exact ih (mergeMaps acc w) hsafe.2 h

/-- `Except.ok` feeding a bind steps to the continuation. -/
theorem wok_bind (a : SMap) (f : SMap → Except WalkStop SMap) :
    (Except.ok a >>= f : Except WalkStop SMap) = f a := rfl

/-- `pure` feeding a bind steps to the continuation. -/
theorem wpure_bind (a : SMap) (f : SMap → Except WalkStop SMap) :
    (pure a >>= f : Except WalkStop SMap) = f a := rfl

/-- An error feeding a bind short-circuits. -/
theorem werror_bind (e : WalkStop) (f : SMap → Except WalkStop SMap) :
    ((Except.error e : Except WalkStop SMap) >>= f) = Except.error e := rfl

/-- The dependency loop of the `TemplateNode` case cannot panic when the
template set is range-safe. -/
theorem walkDeps_no_panic (tset : TSet) (fuel : Nat)
    (hts : tsetRangesSafe tset = true)
    (hstep : ∀ node, allRangesSafe node = true →
        walk tset fuel node ≠ Except.error WalkStop.panic) :
    ∀ (deps : List String) (acc : SMap),
      walkDeps tset fuel deps acc ≠ Except.error WalkStop.panic := by
  intro deps
  induction deps with
  | nil => intro acc h; rw [walkDeps.eq_1] at h; cases h
  | cons dep rest ih =>
      intro acc
      rw [walkDeps.eq_2]
      cases hl : lookupTree tset dep with
      | none => exact ih acc
      | some dtree =>
          cases hwd : walk tset fuel dtree with
          | error e =>
              simp only [hwd, bind, Except.bind]
              intro h
              cases h
              exact hstep dtree (lookupTree_safe tset dep dtree hts hl) hwd
          | ok w =>
              simp only [hwd, bind, Except.bind]
              exact ih (mergeMaps acc w)

/-- The walk never produces the range-case panic on range-safe inputs. -/
theorem walk_no_panic : ∀ (fuel : Nat) (tset : TSet) (node : Node),
    tsetRangesSafe tset = true → allRangesSafe node = true →
    walk tset fuel node ≠ Except.error WalkStop.panic := by
  intro fuel
  induction fuel with
  | zero =>
      intro tset node _ _ h
      rw [walk.eq_1] at h
      cases h
  | succ f ih =>
      intro tset node hts hnode
      have hstep : ∀ n, allRangesSafe n = true →
          walk tset f n ≠ Except.error WalkStop.panic := fun n hn => ih tset n hts hn
      have helse : ∀ (e : Node) (d1 : SMap), allRangesSafeOpt (some e) = true →
          (do
            let w ← walk tset f e
            pure (mergeMaps d1 w)) ≠ (Except.error WalkStop.panic : Except WalkStop SMap) :=
        fun e d1 he =>
          bind_pure_ne_panic _ _ (hstep e (by simpa [allRangesSafeOpt] using he))
      cases node with
      | list ns =>
          rw [walk.eq_2]
          exact walkList_no_panic tset f hstep ns [] (by simpa [allRangesSafe] using hnode)
      | action p? => rw [walk.eq_3]; intro h; cases h
      | ifn p? l? e? =>
          simp only [allRangesSafe, Bool.and_eq_true] at hnode
          cases l? with
          | none =>
              cases e? with
              | none => rw [walk.eq_5, wpure_bind]; exact fun h => nomatch h
              | some e =>
                  rw [walk.eq_5, wpure_bind]
                  exact helse e _ hnode.2
          | some l =>
              rw [walk.eq_4]
              cases hwl : walk tset f l with
              | error e =>
                  rw [werror_bind]
                  intro h
                  cases h
                  exact hstep l (by simpa [allRangesSafeOpt] using hnode.1) hwl
              | ok w =>
                  rw [wok_bind, wpure_bind]
                  cases e? with
                  | none => exact fun h => nomatch h
                  | some e => exact helse e _ hnode.2
      | range p? l? e? =>
          simp only [allRangesSafe, Bool.and_eq_true] at hnode
          cases p? with
          | none =>
              cases e? with
              | none => rw [walk.eq_6, wpure_bind]; exact fun h => nomatch h
              | some e =>
                  rw [walk.eq_6, wpure_bind]
                  exact helse e _ hnode.2
          | some p =>
              cases l? with
              | none =>
                  cases e? with
                  | none => rw [walk.eq_7, wpure_bind]; exact fun h => nomatch h
                  | some e =>
                      rw [walk.eq_7, wpure_bind]
                      exact helse e _ hnode.2
              | some b =>
                  rw [walk.eq_8]
                  by_cases hrp : (rangePathOf p).isEmpty = true
                  · rw [if_pos hrp, wpure_bind]
                    cases e? with
                    | none => exact fun h => nomatch h
                    | some e => exact helse e _ hnode.2
                  · rw [if_neg hrp]
                    have hsafe : rangeSafe p = true := hnode.1
                    simp only [rangeSafe, Bool.or_eq_true, decide_eq_true_eq] at hsafe
                    cases hsafe with
                    | inl h0 =>
                        exact absurd (by simp [h0, List.isEmpty_nil]) hrp
                    | inr h0 =>
                        obtain ⟨d, hd⟩ := Option.isSome_iff_exists.mp h0
                        rw [hd]
                        dsimp only
                        rw [wpure_bind]
                        cases e? with
                        | none => exact fun h => nomatch h
                        | some e => exact helse e _ hnode.2
      | withn p? l? e? =>
          simp only [allRangesSafe, Bool.and_eq_true] at hnode
          cases p? with
          | none =>
              cases e? with
              | none => rw [walk.eq_9, wpure_bind]; exact fun h => nomatch h
              | some e =>
                  rw [walk.eq_9, wpure_bind]
                  exact helse e _ hnode.2
          | some p =>
              cases l? with
              | none =>
                  cases e? with
                  | none => rw [walk.eq_10, wpure_bind]; exact fun h => nomatch h
                  | some e =>
                      rw [walk.eq_10, wpure_bind]
                      exact helse e _ hnode.2
              | some l =>
                  rw [walk.eq_11]
                  cases hwl : walk tset f l with
                  | error e =>
                      rw [werror_bind]
                      intro h
                      cases h
                      exact hstep l (by simpa [allRangesSafeOpt] using hnode.1) hwl
                  | ok w =>
                      rw [wok_bind, wpure_bind]
                      cases e? with
                      | none => exact fun h => nomatch h
                      | some e => exact helse e _ hnode.2
      | templ name p? =>
          rw [walk.eq_12]
          cases hl : lookupTree tset name with
          | none => intro h; cases h
          | some ntree =>
              cases hwt : walk tset f ntree with
              | error e =>
                  simp only [hwt, bind, Except.bind]
                  intro h
                  cases h
                  exact hstep ntree (lookupTree_safe tset name ntree hts hl) hwt
              | ok w =>
                  simp only [hwt, bind, Except.bind]
                  cases hwd : walkDeps tset f (findTemplateDependencies ntree) [] with
                  | error e =>
                      simp only [hwd, bind, Except.bind]
                      intro h
                      cases h
                      exact walkDeps_no_panic tset f hts hstep _ [] hwd
                  | ok w2 =>
                      simp only [hwd, bind, Except.bind, pure, Except.pure]
                      intro h
                      cases h
      | text => rw [walk.eq_13]; intro h; cases h

/-- A range pipe whose arguments are `.a.b` followed by `.a` (e.g.
`[[range printf .a.b .a]]`): extraction first builds `{a: {b: leaf}}` and
then overwrites `a` with a leaf, while the range-path scan still picks the
path `a.b` — so the marker loop meets a non-map at `a`. -/
def exPanicPipe : Pipe := ⟨[⟨[Arg.field ["a", "b"], Arg.field ["a"]]⟩]⟩

/-- A Loop node with that pipe and a (non-`nil`) body. -/
def exPanicRange : Node := Node.range (some exPanicPipe) (some Node.text) none

/-- C3 counterexample: the schema walk is not total — on this Loop node the
unchecked type assertion of the `RangeNode` path-building aborts the walk
(the Go code panics). -/
theorem walk_panics_on_range_collision :
    walk [] 5 exPanicRange = Except.error WalkStop.panic := by
  simp [exPanicRange, exPanicPipe, walk, ExtractVarsFromPipe, extractArg, mergeMaps,
    lookupV, rangePathOf, firstFieldOfCmd, dropDot, ensurePath, setKey, leafMark,
    buildNestedStructure, pure, Except.pure, bind, Except.bind]

/-- Cycle example: `A.tmpl` includes `B`; `B.tmpl` includes `A.tmpl` back
and references `.title`. -/
def exTreeA : Node := Node.list [Node.templ "B" none]

/-- The mutually-including partner template of `exTreeA`. -/
def exTreeB : Node :=
  Node.list [Node.templ "A.tmpl" none, Node.action (some (fieldPipe ["title"]))]

/-- Registry holding the two mutually-including templates. -/
def exRegAB : Registry := [("A.tmpl", exTreeA), ("B.tmpl", exTreeB)]

/-- The template set the walker sees for the mutually-including pair after
loading: the root tree under its own (suffixed) path, the dependency under
its include name. -/
def exCycTSet : TSet := [("A.tmpl", exTreeA), ("B", exTreeB)]

/-- On the loaded cyclic pair the walk never returns: the `TemplateNode`
case of `Template.walk` keeps no visited set, so mutually-including
templates make the recursion descend forever — in the embedding, the fuel
runs out whatever its value. -/
theorem walk_cyclic_fuelOut : ∀ (fuel : Nat),
    walk exCycTSet fuel exTreeA = Except.error WalkStop.fuelOut ∧
    walk exCycTSet fuel (Node.templ "B" none) = Except.error WalkStop.fuelOut ∧
    walk exCycTSet fuel exTreeB = Except.error WalkStop.fuelOut ∧
    walk exCycTSet fuel (Node.templ "A.tmpl" none) = Except.error WalkStop.fuelOut := by
  intro fuel
  induction fuel with
  | zero =>
      refine ⟨?_, ?_, ?_, ?_⟩ <;> rw [walk.eq_1]
  | succ f ih =>
      obtain ⟨hA, htB, hB, htA⟩ := ih
      have hlkB : lookupTree exCycTSet "B" = some exTreeB := rfl
      have hlkA : lookupTree exCycTSet "A.tmpl" = some exTreeA := rfl
      refine ⟨?_, ?_, ?_, ?_⟩
      · show walk exCycTSet (f + 1) (Node.list [Node.templ "B" none]) =
          Except.error WalkStop.fuelOut
        rw [walk.eq_2, walkList.eq_2, htB]
        rfl
      · rw [walk.eq_12, hlkB]
        dsimp only
        rw [hB]
        rfl
      · show walk exCycTSet (f + 1) (Node.list [Node.templ "A.tmpl" none,
          Node.action (some (fieldPipe ["title"]))]) = Except.error WalkStop.fuelOut
        rw [walk.eq_2, walkList.eq_2, htA]
        rfl
      · rw [walk.eq_12, hlkA]
        dsimp only
        rw [hA]
        rfl

/-- C3 (amended): on trees — and template sets — all of whose Loop nodes
have range-safe pipes, the schema walk never aborts through the `RangeNode`
path-building's unchecked type assertion (the single panic source, firing
exactly when the pipe's range path meets a non-mapping intermediate value);
an Include node whose template name is not resolvable contributes only its
own argument pipe's fragment, the walk of the remaining nodes completing
normally; but the walk is still not total even on range-safe inputs: the
`TemplateNode` case keeps no visited set, so on a cyclic template set (the
loaded mutually-including pair, which contains no Loop node at all) the
recursion never returns — the embedded walk exhausts every fuel. -/
theorem walk_total_except_range_assert :
    (∀ (fuel : Nat) (tset : TSet) (node : Node),
        tsetRangesSafe tset = true → allRangesSafe node = true →
        walk tset fuel node ≠ Except.error WalkStop.panic) ∧
    (∀ (tset : TSet) (fuel : Nat) (name : String) (p? : Option Pipe),
        lookupTree tset name = none →
        walk tset (fuel + 1) (Node.templ name p?) =
          Except.ok (mergeMaps [] (extractOptPipe p?))) ∧
    (∀ (fuel : Nat), walk exCycTSet fuel exTreeA = Except.error WalkStop.fuelOut) := by
  refine ⟨walk_no_panic, ?_, fun fuel => (walk_cyclic_fuelOut fuel).1⟩
  intro tset fuel name p? hl
  rw [walk.eq_12, hl]

/-- Witness for C3 (amended): the well-formed Loop over `.items` never
panics, and an Include of the unregistered name `missing` contributes
exactly its argument pipe's fragment. -/
theorem walk_total_except_range_assert_witness :
    walk [] 3 exRangeNode ≠ Except.error WalkStop.panic ∧
    walk [] 3 (Node.templ "missing" (some (fieldPipe ["arg"]))) =
      Except.ok (mergeMaps [] (extractOptPipe (some (fieldPipe ["arg"])))) := by
  constructor
  · refine walk_total_except_range_assert.1 3 [] exRangeNode rfl ?_
    simp [exRangeNode, allRangesSafe, allRangesSafeOpt, rangeSafe, rangePathOf,
      firstFieldOfCmd, dropDot, fieldPipe, ExtractVarsFromPipe, extractArg,
      buildNestedStructure, mergeMaps, lookupV, setKey, leafMark, ensurePath]
  · exact walk_total_except_range_assert.2.1 [] 2 "missing" (some (fieldPipe ["arg"])) rfl

/-! ## Dependency-loader invariants (C8, C10) -/

theorem contains_iff (l : List String) (x : String) : l.contains x = true ↔ x ∈ l := by
  induction l with
  | nil => simp [List.contains]
  | cons hd tl ih => simp [List.contains] at ih ⊢

theorem mem_uniqueAux (l : List String) : ∀ (seen : List String) (x : String),
    x ∈ uniqueAux seen l ↔ x ∈ l ∧ x ∉ seen := by
  induction l with
  | nil => intro seen x; simp [uniqueAux]
  | cons hd tl ih =>
      intro seen x
      by_cases hc : seen.contains hd = true
      · rw [uniqueAux, if_pos hc, ih seen x]
        have hhd : hd ∈ seen := (contains_iff seen hd).mp hc
        constructor
        · rintro ⟨hx, hns⟩
          exact ⟨List.mem_cons_of_mem hd hx, hns⟩
        · rintro ⟨hx, hns⟩
          cases List.mem_cons.mp hx with
          | inl he => exact absurd (he ▸ hhd) hns
          | inr hm => exact ⟨hm, hns⟩
      · rw [uniqueAux, if_neg hc]
        have hhd : hd ∉ seen := fun hm => hc ((contains_iff seen hd).mpr hm)
        constructor
        · intro hx
          cases List.mem_cons.mp hx with
          | inl he => exact ⟨he ▸ List.mem_cons_self hd tl, he ▸ hhd⟩
          | inr hm =>
              obtain ⟨hxt, hxs⟩ := (ih (hd :: seen) x).mp hm
              refine ⟨List.mem_cons_of_mem hd hxt, fun hxe => hxs ?_⟩
              exact List.mem_cons_of_mem hd hxe
        · rintro ⟨hx, hns⟩
          by_cases hxh : x = hd
          · exact hxh ▸ List.mem_cons_self hd _
          · cases List.mem_cons.mp hx with
            | inl he => exact absurd he hxh
            | inr hm =>
                refine List.mem_cons_of_mem hd ((ih (hd :: seen) x).mpr ⟨hm, ?_⟩)
                intro hxm
                cases List.mem_cons.mp hxm with
                | inl he => exact hxh he
                | inr hs => exact hns hs

theorem mem_UniqueString (l : List String) (x : String) :
    x ∈ UniqueString l ↔ x ∈ l := by
  rw [UniqueString, mem_uniqueAux l [] x]
  simp

theorem length_filter_mono {α : Type} (l : List α) (p q : α → Bool)
    (h : ∀ x ∈ l, q x = true → p x = true) :
    (l.filter q).length ≤ (l.filter p).length := by
  induction l with
  | nil => simp
  | cons hd tl ih =>
      have htl : (tl.filter q).length ≤ (tl.filter p).length :=
        ih (fun x hx => h x (List.mem_cons_of_mem hd hx))
      by_cases hq : q hd = true
      · have hp : p hd = true := h hd (List.mem_cons_self hd tl) hq
        simp [List.filter_cons, hq, hp]
        omega
      · simp only [List.filter_cons, hq, if_neg]
        by_cases hp : p hd = true
        · simp [hp]
          omega
        · simp [hp, Bool.false_eq_true] at *
          omega

theorem length_filter_strict {α : Type} (l : List α) (p q : α → Bool)
    (h : ∀ x ∈ l, q x = true → p x = true)
    (a : α) (ha : a ∈ l) (hpa : p a = true) (hqa : q a = false) :
    (l.filter q).length < (l.filter p).length := by
  induction l with
  | nil => cases ha
  | cons hd tl ih =>
      have hmono : (tl.filter q).length ≤ (tl.filter p).length :=
        length_filter_mono tl p q (fun x hx => h x (List.mem_cons_of_mem hd hx))
      cases List.mem_cons.mp ha with
      | inl hahd =>
          subst hahd
          simp only [List.filter_cons, hpa, hqa, if_pos, Bool.false_eq_true, if_neg]
          simp
          omega
      | inr hatl =>
          by_cases hq : q hd = true
          · have hp : p hd = true := h hd (List.mem_cons_self hd tl) hq
            have := ih (fun x hx => h x (List.mem_cons_of_mem hd hx)) hatl
            simp [List.filter_cons, hq, hp]
            omega
          · have := ih (fun x hx => h x (List.mem_cons_of_mem hd hx)) hatl
            simp only [List.filter_cons, hq, Bool.false_eq_true, if_neg]
            by_cases hp : p hd = true
            · simp [hp]
              omega
            · simp [hp, Bool.false_eq_true]
              omega

theorem lookupReg_mem (reg : Registry) (p : String) (t : Node)
    (h : lookupReg reg p = some t) : p ∈ reg.map Prod.fst := by
  induction reg with
  | nil => simp [lookupReg] at h
  | cons hd rest ih =>
      obtain ⟨n', t'⟩ := hd
      by_cases hn : n' = p
      · simp [hn]
      · simp only [lookupReg, if_neg hn] at h
        exact List.mem_cons_of_mem _ (ih h)

theorem contains_eq_false_iff (l : List String) (x : String) :
    l.contains x = false ↔ x ∉ l := by
  rw [← contains_iff l x]
  cases l.contains x <;> simp

/-- Extending the processed set never increases the number of unprocessed
registry names. -/
theorem unproc_le_of_subset (reg : Registry) (p1 p2 : List String)
    (h : ∀ x ∈ p1, x ∈ p2) : unproc reg p2 ≤ unproc reg p1 := by
  refine length_filter_mono _ _ _ ?_
  intro x _ hq
  simp only [Bool.not_eq_true'] at hq ⊢
  rw [contains_eq_false_iff] at hq ⊢
  exact fun hm => hq (h x hm)

theorem unproc_cons_le (reg : Registry) (processed : List String) (p : String) :
    unproc reg (p :: processed) ≤ unproc reg processed := by
  refine unproc_le_of_subset reg processed (p :: processed) ?_
  intro x hx
  exact List.mem_cons_of_mem p hx

theorem unproc_cons_lt (reg : Registry) (processed : List String) (p : String)
    (hmem : p ∈ reg.map Prod.fst) (hnp : p ∉ processed) :
    unproc reg (p :: processed) < unproc reg processed := by
  refine length_filter_strict _ _ _ ?_ p ?_ ?_ ?_
  · intro x _ hq
    simp only [Bool.not_eq_true'] at hq ⊢
    rw [contains_eq_false_iff] at hq ⊢
    exact fun hm => hq (List.mem_cons_of_mem p hm)
  · exact (mem_UniqueString _ p).mpr hmem
  · simp only [Bool.not_eq_true']
    rw [contains_eq_false_iff]
    exact hnp
  · have hc : (p :: processed).contains p = true :=
      (contains_iff _ p).mpr (List.mem_cons_self p processed)
    show (!(p :: processed).contains p) = false
    rw [hc]
    rfl

theorem unproc_pos (reg : Registry) (processed : List String) (p : String)
    (hmem : p ∈ reg.map Prod.fst) (hnp : p ∉ processed) :
    0 < unproc reg processed := by
  have := unproc_cons_lt reg processed p hmem hnp
  omega

/-- Names marked processed only accumulate along the loader's recursion, and
the path handed to `addDependenciesRecursive` is always marked. -/
theorem loader_processed_mono (reg : Registry) : ∀ (fuel : Nat),
    (∀ (st : LoadState) (path : String) (tree : Node) (st' : LoadState),
        addDepsRec reg fuel st path tree = Except.ok st' →
        ∀ x, (x = path ∨ x ∈ st.processed) → x ∈ st'.processed) ∧
    (∀ (deps : List String) (st st' : LoadState),
        goDeps reg fuel st deps = Except.ok st' →
        ∀ x ∈ st.processed, x ∈ st'.processed) := by
  intro fuel
  induction fuel with
  | zero =>
      constructor
      · intro st path tree st' h
        rw [addDepsRec.eq_1] at h
        cases h
      · intro deps
        induction deps with
        | nil =>
            intro st st' h x hx
            rw [goDeps.eq_1] at h
            cases h
            exact hx
        | cons dep rest ih =>
            intro st st' h x hx
            rw [goDeps.eq_2] at h
            by_cases hc : st.processed.contains (ensureSuffix dep) = true
            · rw [if_pos hc] at h
              exact ih st st' h x hx
            · rw [if_neg hc] at h
              cases hl : lookupReg reg (ensureSuffix dep) with
              | none =>
                  simp only [hl] at h
                  cases h
              | some depTree =>
                  simp only [hl, addDepsRec.eq_1, bind, Except.bind] at h
                  cases h
  | succ f ihf =>
      have hADP : ∀ (st : LoadState) (path : String) (tree : Node) (st' : LoadState),
          addDepsRec reg (f + 1) st path tree = Except.ok st' →
          ∀ x, (x = path ∨ x ∈ st.processed) → x ∈ st'.processed := by
        intro st path tree st' h x hx
        rw [addDepsRec.eq_2] at h
        refine ihf.2 (findTemplateDependencies tree) _ st' h x ?_
        rcases hx with rfl | hm
        · exact List.mem_cons_self _ _
        · exact List.mem_cons_of_mem _ hm
      refine ⟨hADP, ?_⟩
      intro deps
      induction deps with
      | nil =>
          intro st st' h x hx
          rw [goDeps.eq_1] at h
          cases h
          exact hx
      | cons dep rest ih =>
          intro st st' h x hx
          rw [goDeps.eq_2] at h
          by_cases hc : st.processed.contains (ensureSuffix dep) = true
          · rw [if_pos hc] at h
            exact ih st st' h x hx
          · rw [if_neg hc] at h
            cases hl : lookupReg reg (ensureSuffix dep) with
            | none =>
                simp only [hl] at h
                cases h
            | some depTree =>
                simp only [hl] at h
                cases haux : addDepsRec reg (f + 1)
                    ⟨st.processed, addTree st.tset dep depTree,
                      st.queries ++ [ensureSuffix dep]⟩
                    (ensureSuffix dep) depTree with
                | error e =>
                    rw [haux] at h
                    simp only [bind, Except.bind] at h
                    cases h
                | ok st2 =>
                    rw [haux] at h
                    simp only [bind, Except.bind] at h
                    exact ih st2 st' h x (hADP _ _ _ _ haux x (Or.inr hx))

/-- With more fuel than there are unprocessed distinct registry names, the
loader's recursion never exhausts its fuel: every recursive descent marks a
fresh registry name processed first. -/
theorem loader_no_fuelOut (reg : Registry) : ∀ (fuel : Nat),
    (∀ (st : LoadState) (path : String) (tree : Node),
        unproc reg (path :: st.processed) < fuel →
        addDepsRec reg fuel st path tree ≠ Except.error LoadErr.fuelOut) ∧
    (∀ (deps : List String) (st : LoadState),
        unproc reg st.processed ≤ fuel →
        goDeps reg fuel st deps ≠ Except.error LoadErr.fuelOut) := by
  intro fuel
  induction fuel with
  | zero =>
      constructor
      · intro st path tree hlt
        omega
      · intro deps
        induction deps with
        | nil =>
            intro st _ h
            rw [goDeps.eq_1] at h
            cases h
        | cons dep rest ih =>
            intro st hle
            rw [goDeps.eq_2]
            by_cases hc : st.processed.contains (ensureSuffix dep) = true
            · rw [if_pos hc]
              exact ih st hle
            · rw [if_neg hc]
              cases hl : lookupReg reg (ensureSuffix dep) with
              | none =>
                  intro h
                  simp at h
              | some depTree =>
                  have hmem := lookupReg_mem reg (ensureSuffix dep) depTree hl
                  have hnp : ensureSuffix dep ∉ st.processed :=
                    fun hm => hc ((contains_iff _ _).mpr hm)
                  have := unproc_pos reg st.processed (ensureSuffix dep) hmem hnp
                  omega
  | succ f ihf =>
      have hADP : ∀ (st : LoadState) (path : String) (tree : Node),
          unproc reg (path :: st.processed) < f + 1 →
          addDepsRec reg (f + 1) st path tree ≠ Except.error LoadErr.fuelOut := by
        intro st path tree hlt
        rw [addDepsRec.eq_2]
        exact ihf.2 (findTemplateDependencies tree) ⟨path :: st.processed, st.tset, st.queries⟩
          (by dsimp only; omega)
      refine ⟨hADP, ?_⟩
      intro deps
      induction deps with
      | nil =>
          intro st _ h
          rw [goDeps.eq_1] at h
          cases h
      | cons dep rest ih =>
          intro st hle
          rw [goDeps.eq_2]
          by_cases hc : st.processed.contains (ensureSuffix dep) = true
          · rw [if_pos hc]
            exact ih st hle
          · rw [if_neg hc]
            cases hl : lookupReg reg (ensureSuffix dep) with
            | none =>
                intro h
                simp at h
            | some depTree =>
                dsimp only
                have hmem := lookupReg_mem reg (ensureSuffix dep) depTree hl
                have hnp : ensureSuffix dep ∉ st.processed :=
                  fun hm => hc ((contains_iff _ _).mpr hm)
                have hlt : unproc reg (ensureSuffix dep :: st.processed) < f + 1 := by
                  have := unproc_cons_lt reg st.processed (ensureSuffix dep) hmem hnp
                  omega
                cases haux : addDepsRec reg (f + 1)
                    ⟨st.processed, addTree st.tset dep depTree,
                      st.queries ++ [ensureSuffix dep]⟩
                    (ensureSuffix dep) depTree with
                | error e =>
                    simp only [bind, Except.bind]
                    intro h
                    injection h with h2
                    subst h2
                    exact hADP ⟨st.processed, addTree st.tset dep depTree,
                      st.queries ++ [ensureSuffix dep]⟩ (ensureSuffix dep) depTree hlt haux
                | ok st2 =>
                    simp only [bind, Except.bind]
                    refine ih st2 ?_
                    have hsub : ∀ x, x ∈ ensureSuffix dep :: st.processed → x ∈ st2.processed := by
                      intro x hx
                      refine (loader_processed_mono reg (f + 1)).1 _ _ _ _ haux x ?_
                      cases List.mem_cons.mp hx with
                      | inl he => exact Or.inl he
                      | inr hm => exact Or.inr hm
                    have := unproc_le_of_subset reg (ensureSuffix dep :: st.processed)
                      st2.processed hsub
                    omega

theorem nodup_append_singleton (l : List String) (x : String)
    (hnd : l.Nodup) (hx : x ∉ l) : (l ++ [x]).Nodup := by
  induction l with
  | nil => simp
  | cons a tl ih =>
      simp only [List.nodup_cons] at hnd
      have hxa : x ∉ tl := fun hm => hx (List.mem_cons_of_mem a hm)
      have hax : a ≠ x := fun he => hx (he ▸ List.mem_cons_self a tl)
      simp only [List.cons_append, List.nodup_cons]
      refine ⟨?_, ih hnd.2 hxa⟩
      intro hmem
      cases List.mem_append.mp hmem with
      | inl hm => exact hnd.1 hm
      | inr hm => exact hax (by simpa using hm)

/-- The `.tmpl` normalization always produces a `.tmpl`-suffixed name. -/
theorem hasSuffix_ensureSuffix (s : String) :
    hasSuffix (ensureSuffix s) ".tmpl" = true := by
  unfold ensureSuffix
  by_cases h : hasSuffix s ".tmpl" = true
  · rw [if_pos h]
    exact h
  · rw [if_neg h]
    show (".tmpl".data == (s ++ ".tmpl").data.drop
      ((s ++ ".tmpl").data.length - ".tmpl".data.length)) = true
    rw [String.data_append, List.length_append, Nat.add_sub_cancel, List.drop_left]
    exact beq_self_eq_true _

/-- Queries stay duplicate-free along the loader's recursion: every queried
name is immediately marked processed, and processed names are never queried
again. -/
theorem loader_queries_inv (reg : Registry) : ∀ (fuel : Nat),
    (∀ (st : LoadState) (path : String) (tree : Node) (st' : LoadState),
        addDepsRec reg fuel st path tree = Except.ok st' →
        st.queries.Nodup → (∀ q ∈ st.queries, q ∈ path :: st.processed) →
        st'.queries.Nodup ∧ (∀ q ∈ st'.queries, q ∈ st'.processed)) ∧
    (∀ (deps : List String) (st st' : LoadState),
        goDeps reg fuel st deps = Except.ok st' →
        st.queries.Nodup → (∀ q ∈ st.queries, q ∈ st.processed) →
        st'.queries.Nodup ∧ (∀ q ∈ st'.queries, q ∈ st'.processed)) := by
  intro fuel
  induction fuel with
  | zero =>
      constructor
      · intro st path tree st' h
        rw [addDepsRec.eq_1] at h
        cases h
      · intro deps
        induction deps with
        | nil =>
            intro st st' h hnd hsub
            rw [goDeps.eq_1] at h
            cases h
            exact ⟨hnd, hsub⟩
        | cons dep rest ih =>
            intro st st' h hnd hsub
            rw [goDeps.eq_2] at h
            by_cases hc : st.processed.contains (ensureSuffix dep) = true
            · rw [if_pos hc] at h
              exact ih st st' h hnd hsub
            · rw [if_neg hc] at h
              cases hl : lookupReg reg (ensureSuffix dep) with
              | none =>
                  simp only [hl] at h
                  cases h
              | some depTree =>
                  simp only [hl, addDepsRec.eq_1, bind, Except.bind] at h
                  cases h
  | succ f ihf =>
      have hADP : ∀ (st : LoadState) (path : String) (tree : Node) (st' : LoadState),
          addDepsRec reg (f + 1) st path tree = Except.ok st' →
          st.queries.Nodup → (∀ q ∈ st.queries, q ∈ path :: st.processed) →
          st'.queries.Nodup ∧ (∀ q ∈ st'.queries, q ∈ st'.processed) := by
        intro st path tree st' h hnd hsub
        rw [addDepsRec.eq_2] at h
        exact ihf.2 (findTemplateDependencies tree)
          ⟨path :: st.processed, st.tset, st.queries⟩ st' h hnd hsub
      refine ⟨hADP, ?_⟩
      intro deps
      induction deps with
      | nil =>
          intro st st' h hnd hsub
          rw [goDeps.eq_1] at h
          cases h
          exact ⟨hnd, hsub⟩
      | cons dep rest ih =>
          intro st st' h hnd hsub
          rw [goDeps.eq_2] at h
          by_cases hc : st.processed.contains (ensureSuffix dep) = true
          · rw [if_pos hc] at h
            exact ih st st' h hnd hsub
          · rw [if_neg hc] at h
            cases hl : lookupReg reg (ensureSuffix dep) with
            | none =>
                simp only [hl] at h
                cases h
            | some depTree =>
                simp only [hl] at h
                have hnp : ensureSuffix dep ∉ st.processed :=
                  fun hm => hc ((contains_iff _ _).mpr hm)
                have hnq : ensureSuffix dep ∉ st.queries :=
                  fun hm => hnp (hsub _ hm)
                have hnd2 : (st.queries ++ [ensureSuffix dep]).Nodup :=
                  nodup_append_singleton st.queries (ensureSuffix dep) hnd hnq
                have hsub2 : ∀ q ∈ st.queries ++ [ensureSuffix dep],
                    q ∈ ensureSuffix dep :: st.processed := by
                  intro q hq
                  cases List.mem_append.mp hq with
                  | inl hm => exact List.mem_cons_of_mem _ (hsub q hm)
                  | inr hm => exact (by simpa using hm) ▸ List.mem_cons_self _ _
                cases haux : addDepsRec reg (f + 1)
                    ⟨st.processed, addTree st.tset dep depTree,
                      st.queries ++ [ensureSuffix dep]⟩
                    (ensureSuffix dep) depTree with
                | error e =>
                    rw [haux] at h
                    simp only [bind, Except.bind] at h
                    cases h
                | ok st2 =>
                    rw [haux] at h
                    simp only [bind, Except.bind] at h
                    obtain ⟨hnd3, hsub3⟩ := hADP _ _ _ _ haux hnd2 hsub2
                    exact ih st2 st' h hnd3 hsub3

/-- Every name the loader hands to the registry is `.tmpl`-suffixed. -/
theorem loader_suffix_inv (reg : Registry) : ∀ (fuel : Nat),
    (∀ (st : LoadState) (path : String) (tree : Node) (st' : LoadState),
        addDepsRec reg fuel st path tree = Except.ok st' →
        (∀ q ∈ st.queries, hasSuffix q ".tmpl" = true) →
        ∀ q ∈ st'.queries, hasSuffix q ".tmpl" = true) ∧
    (∀ (deps : List String) (st st' : LoadState),
        goDeps reg fuel st deps = Except.ok st' →
        (∀ q ∈ st.queries, hasSuffix q ".tmpl" = true) →
        ∀ q ∈ st'.queries, hasSuffix q ".tmpl" = true) := by
  intro fuel
  induction fuel with
  | zero =>
      constructor
      · intro st path tree st' h
        rw [addDepsRec.eq_1] at h
        cases h
      · intro deps
        induction deps with
        | nil =>
            intro st st' h hq
            rw [goDeps.eq_1] at h
            cases h
            exact hq
        | cons dep rest ih =>
            intro st st' h hq
            rw [goDeps.eq_2] at h
            by_cases hc : st.processed.contains (ensureSuffix dep) = true
            · rw [if_pos hc] at h
              exact ih st st' h hq
            · rw [if_neg hc] at h
              cases hl : lookupReg reg (ensureSuffix dep) with
              | none =>
                  simp only [hl] at h
                  cases h
              | some depTree =>
                  simp only [hl, addDepsRec.eq_1, bind, Except.bind] at h
                  cases h
  | succ f ihf =>
      have hADP : ∀ (st : LoadState) (path : String) (tree : Node) (st' : LoadState),
          addDepsRec reg (f + 1) st path tree = Except.ok st' →
          (∀ q ∈ st.queries, hasSuffix q ".tmpl" = true) →
          ∀ q ∈ st'.queries, hasSuffix q ".tmpl" = true := by
        intro st path tree st' h hq
        rw [addDepsRec.eq_2] at h
        exact ihf.2 (findTemplateDependencies tree)
          ⟨path :: st.processed, st.tset, st.queries⟩ st' h hq
      refine ⟨hADP, ?_⟩
      intro deps
      induction deps with
      | nil =>
          intro st st' h hq
          rw [goDeps.eq_1] at h
          cases h
          exact hq
      | cons dep rest ih =>
          intro st st' h hq
          rw [goDeps.eq_2] at h
          by_cases hc : st.processed.contains (ensureSuffix dep) = true
          · rw [if_pos hc] at h
            exact ih st st' h hq
          · rw [if_neg hc] at h
            cases hl : lookupReg reg (ensureSuffix dep) with
            | none =>
                simp only [hl] at h
                cases h
            | some depTree =>
                simp only [hl] at h
                have hq2 : ∀ q ∈ st.queries ++ [ensureSuffix dep],
                    hasSuffix q ".tmpl" = true := by
                  intro q hqm
                  cases List.mem_append.mp hqm with
                  | inl hm => exact hq q hm
                  | inr hm => exact (by simpa using hm) ▸ hasSuffix_ensureSuffix dep
                cases haux : addDepsRec reg (f + 1)
                    ⟨st.processed, addTree st.tset dep depTree,
                      st.queries ++ [ensureSuffix dep]⟩
                    (ensureSuffix dep) depTree with
                | error e =>
                    rw [haux] at h
                    simp only [bind, Except.bind] at h
                    cases h
                | ok st2 =>
                    rw [haux] at h
                    simp only [bind, Except.bind] at h
                    exact ih st2 st' h (hADP _ _ _ _ haux hq2)

/-- C8: dependency loading terminates on every registry, including cyclic
inclusion graphs — the embedded recursion, given its fixed fuel of one more
than the number of distinct registry names, never exhausts that fuel; a name
already in the processed set is never reprocessed, so each dependency is
fetched from the registry and parsed at most once per pass (the query log is
duplicate-free); and the two mutually-including templates resolve to a
successful pass that fetches `B.tmpl` exactly once. -/
theorem loadDependencies_terminates :
    (∀ (reg : Registry) (path : String) (tree : Node),
        LoadDependencies reg path tree ≠ Except.error LoadErr.fuelOut) ∧
    (∀ (reg : Registry) (path : String) (tree : Node) (st : LoadState),
        LoadDependencies reg path tree = Except.ok st → st.queries.Nodup) ∧
    LoadDependencies exRegAB "A.tmpl" exTreeA =
      Except.ok ⟨["B.tmpl", "A.tmpl"], [("B", exTreeB)], ["B.tmpl"]⟩ := by
  refine ⟨?_, ?_, ?_⟩
  · intro reg path tree
    refine (loader_no_fuelOut reg (unproc reg [] + 1)).1 ⟨[], [], []⟩ path tree ?_
    dsimp only
    have := unproc_cons_le reg [] path
    omega
  · intro reg path tree st h
    exact ((loader_queries_inv reg (unproc reg [] + 1)).1 ⟨[], [], []⟩ path tree st h
      (by simp) (by simp)).1
  · simp +decide [LoadDependencies, unproc, UniqueString, uniqueAux, exRegAB, exTreeA,
      exTreeB, addDepsRec, goDeps, findTemplateDependencies, depsOfList, depsOfOpt,
      ensureSuffix, hasSuffix, lookupReg, addTree, pure, Except.pure, bind, Except.bind,
      fieldPipe]

/-- Witness for C8: the cyclic pair loads successfully (not a fuel error)
with a duplicate-free fetch log. -/
theorem loadDependencies_terminates_witness :
    LoadDependencies exRegAB "A.tmpl" exTreeA ≠ Except.error LoadErr.fuelOut ∧
    (LoadState.mk ["B.tmpl", "A.tmpl"] [("B", exTreeB)] ["B.tmpl"]).queries.Nodup :=
  ⟨loadDependencies_terminates.1 exRegAB "A.tmpl" exTreeA,
   loadDependencies_terminates.2.1 exRegAB "A.tmpl" exTreeA
     ⟨["B.tmpl", "A.tmpl"], [("B", exTreeB)], ["B.tmpl"]⟩
     loadDependencies_terminates.2.2⟩

/-- Naming example: the root includes `"B"` (no suffix); the registry holds
the dependency under `"B.tmpl"`. -/
def exTreeB2 : Node := Node.action (some (fieldPipe ["title"]))

/-- Root template including `"B"`. -/
def exTreeA2 : Node := Node.templ "B" none

/-- Registry for the naming example. -/
def exRegB : Registry := [("B.tmpl", exTreeB2)]

/-- C10: during dependency loading the registry is only queried with
`.tmpl`-suffixed names (an unsuffixed include name gets the suffix appended
before `Find`), while the fetched parse tree is registered in the template
set under the original include name — so a template included as `"B"` is
fetched as `"B.tmpl"`, stored as `"B"`, and the walker's Include lookup
resolves it as `"B"`. -/
theorem loader_suffix_and_original_names :
    (∀ (reg : Registry) (path : String) (tree : Node) (st : LoadState),
        LoadDependencies reg path tree = Except.ok st →
        ∀ q ∈ st.queries, hasSuffix q ".tmpl" = true) ∧
    LoadDependencies exRegB "A.tmpl" exTreeA2 =
      Except.ok ⟨["B.tmpl", "A.tmpl"], [("B", exTreeB2)], ["B.tmpl"]⟩ ∧
    lookupTree (("A.tmpl", exTreeA2) :: [("B", exTreeB2)]) "B" = some exTreeB2 ∧
    walk (("A.tmpl", exTreeA2) :: [("B", exTreeB2)]) 5 exTreeA2 =
      Except.ok [("title", leafMark)] := by
  refine ⟨?_, ?_, ?_, ?_⟩
  · intro reg path tree st h
    exact (loader_suffix_inv reg (unproc reg [] + 1)).1 ⟨[], [], []⟩ path tree st h
      (by simp)
  · simp +decide [LoadDependencies, unproc, UniqueString, uniqueAux, exRegB, exTreeA2,
      exTreeB2, addDepsRec, goDeps, findTemplateDependencies, depsOfList, depsOfOpt,
      ensureSuffix, hasSuffix, lookupReg, addTree, pure, Except.pure, bind, Except.bind,
      fieldPipe]
  · simp [lookupTree, exTreeA2, exTreeB2]
  · simp [walk, walkList, walkDeps, exTreeA2, exTreeB2, lookupTree,
      findTemplateDependencies, depsOfList, depsOfOpt, UniqueString, uniqueAux,
      fieldPipe, ExtractVarsFromPipe, extractOptPipe, extractArg, buildNestedStructure,
      mergeMaps, lookupV, setKey, leafMark, pure, Except.pure, bind, Except.bind]

/-- Witness for C10: in the concrete run the single registry query
`"B.tmpl"` indeed carries the `.tmpl` suffix. -/
theorem loader_suffix_and_original_names_witness :
    hasSuffix "B.tmpl" ".tmpl" = true :=
  loader_suffix_and_original_names.1 exRegB "A.tmpl" exTreeA2
    ⟨["B.tmpl", "A.tmpl"], [("B", exTreeB2)], ["B.tmpl"]⟩
    loader_suffix_and_original_names.2.1 "B.tmpl" (by simp)

end Rprompt
